import Mathlib

/-!
Verification development for the `my-wheels` repository
(`mywheels.cmcutils.readoutput`, `mywheels.cmcutils.readcatalog`,
`mywheels.gccatalogs.aggregate`).

Numeric columns are modelled over `ℚ`; tables over lists.  Fallible
operations of the Python code return `Except String`; a raised Python
exception is modelled as `Except.error` carrying the exception kind.
-/

/-! ## Minimum-index selection

Both `pandas.DataFrame.idxmin(axis=1)` (aggregate.py, line 135) and
`numpy.argmin(axis=0)` (readcatalog.py, lines 191-193) return the position
of the first occurrence of the minimum value of a sequence.  `idxminList`
is that library operation: on `x :: rest` it keeps `0` unless the minimum
of `rest` is strictly smaller than `x`, which is exactly the
first-occurrence tie-break. -/

def idxminList : List ℚ → ℕ
  | [] => 0
  | [_] => 0
  | x :: y :: ys =>
    if (y :: ys).getD (idxminList (y :: ys)) 0 < x then idxminList (y :: ys) + 1 else 0

/-! ## Matching engine (aggregate.py, `GCCatalog.match_to_cmc_models`)

Within one (rg, metallicity) bin the code builds a cluster×snapshot distance
matrix by summing, over the comparison parameters `["logM", "rc/rh"]`, the
squared difference of the cluster's and the snapshot's value
(lines 121-131), then takes `distances.idxmin(axis=1)` per cluster row
(line 135).  A cluster or snapshot is its pair of comparison-parameter
values `(logM, rc/rh)`. -/

def matchDist (c s : ℚ × ℚ) : ℚ := (c.1 - s.1) ^ 2 + (c.2 - s.2) ^ 2

/-- Per-bin matching: each cluster is assigned the position of the
first-minimum entry of its row of the distance matrix. -/
def matchClusters (clusters snaps : List (ℚ × ℚ)) : List ℕ :=
  clusters.map (fun c => idxminList (snaps.map (matchDist c)))

/-! ## Snapshot selection (readcatalog.py, `CMCCatalog._select_dat_data`)

Lines 186-196: the rows of the model's dat file are restricted to times in
the closed interval `[timesteps.min(), timesteps.max()]`; if none remain the
empty table is returned, otherwise for every target time the in-range row of
minimum absolute time difference is taken (`np.argmin(axis=0)` over the
`|outer difference|` matrix, then `iloc`).  Rows are modelled by their time
value. -/

def minList : List ℚ → ℚ
  | [] => 0
  | x :: xs => xs.foldl min x

def maxList : List ℚ → ℚ
  | [] => 0
  | x :: xs => xs.foldl max x

def selectDatData (times targets : List ℚ) : List ℚ :=
  let inR := times.filter fun t =>
    decide (minList targets ≤ t) && decide (t ≤ maxList targets)
  if inR.isEmpty then []
  else targets.map fun tgt => inR.getD (idxminList (inR.map fun t => |t - tgt|)) 0

/-! ## Unit conversion (readoutput.py, `_dat_file`)

`_parse_units_string` (lines 119-136) scans the whitespace-split tokens of a
unit expression, keeping a factor (initially 1.0) and a pending operator
(initially multiply).  An operator token merely (re)sets the pending
operator; a unit name is applied with the pending operator and clears it,
or raises when no operator is pending.  An unknown unit name raises a
`KeyError` from the `unitdict` lookup.  The expression is modelled already
split at whitespace; the unit dictionary as a partial map `String → Option ℚ`. -/

inductive UnitOp where
  | mul
  | div
deriving DecidableEq

def parseUnitsAux (ud : String → Option ℚ) :
    ℚ → Option UnitOp → List String → Except String ℚ
  | factor, _, [] => .ok factor
  | factor, op, u :: rest =>
    if u = "*" then parseUnitsAux ud factor (some .mul) rest
    else if u = "/" then parseUnitsAux ud factor (some .div) rest
    else
      match op with
      | some .mul =>
        match ud u with
        | some x => parseUnitsAux ud (factor * x) none rest
        | none => .error "KeyError"
      | some .div =>
        match ud u with
        | some x => parseUnitsAux ud (factor / x) none rest
        | none => .error "KeyError"
      | none => .error "Unrecognized sequence in string"

def parseUnitsString (ud : String → Option ℚ) (tokens : List String) : Except String ℚ :=
  parseUnitsAux ud 1 (some .mul) tokens

/-- `convert_units` (lines 78-107): one column of the loaded table, with its
name, values, and the `units_converted` flag (initialized `false` on load). -/
structure DatCol where
  cname : String
  vals : List ℚ
  converted : Bool
deriving DecidableEq

/-- One iteration of the `convert_units` loop for the request `nu`
(column name, unit-expression tokens): a present, unconverted column is
multiplied in place by the parsed factor and marked converted; a present,
already-converted column is skipped silently; a missing column raises
unless `missingOk`. -/
def convertOne (ud : String → Option ℚ) (missingOk : Bool)
    (cols : List DatCol) (nu : String × List String) : Except String (List DatCol) :=
  match cols.find? (fun c => c.cname == nu.1) with
  | some c =>
    if c.converted then .ok cols
    else
      match parseUnitsString ud nu.2 with
      | .ok f => .ok (cols.map fun d =>
          if d.cname = nu.1 then ⟨d.cname, d.vals.map (· * f), true⟩ else d)
      | .error e => .error e
  | none => if missingOk then .ok cols else .error "Name not found in columns"

def convertUnits (ud : String → Option ℚ) (missingOk : Bool)
    (req : List (String × List String)) (cols : List DatCol) :
    Except String (List DatCol) :=
  req.foldlM (fun st nu => convertOne ud missingOk st nu) cols

/-- A state in which every requested column is either present and already
marked converted, or absent with `missing_ok` set. -/
def reqSatisfied (mok : Bool) (req : List (String × List String)) (cols : List DatCol) : Prop :=
  ∀ nu ∈ req,
    (∃ c, cols.find? (fun c => c.cname == nu.1) = some c ∧ c.converted = true) ∨
    (cols.find? (fun c => c.cname == nu.1) = none ∧ mok = true)

def exampleUnitdict : String → Option ℚ := fun s =>
  if s = "cm" then some 2 else if s = "s" then some 5 else none

/-- Well-formed alternation `u0 op1 u1 op2 u2 ...` of unit names and
operators, as token list (`true` = `*`, `false` = `/`). -/
def altTokens (u0 : String) (rest : List (Bool × String)) : List String :=
  u0 :: rest.flatMap fun p => [if p.1 then "*" else "/", p.2]

def applyUnitOp (f : ℚ) (o : Bool) (x : ℚ) : ℚ := if o then f * x else f / x

/-! ## Python string primitives

The repository leans on Python's `str.split(sep)`, `str.split()`
(whitespace), `str.replace(old, new)` and `float()`/`int()` builtins.
Strings are modelled as `List Char` so that every operation is
kernel-executable; each definition below models the corresponding CPython
semantics on the inputs the repository uses. -/

/-- Python `s.split(sep)` for a single-character separator: splits at every
occurrence, keeping empty fields (so `"a_".split("_") == ["a", ""]`). -/
def pySplitChar (sep : Char) : List Char → List (List Char)
  | [] => [[]]
  | c :: rest =>
    if c = sep then [] :: pySplitChar sep rest
    else
      match pySplitChar sep rest with
      | f :: fs => (c :: f) :: fs
      | [] => [[c]]

/-- Python `s.replace(old, new)`: replaces non-overlapping occurrences left
to right (the empty pattern is never used by the repository and is treated
as no occurrence).  Structural recursion on a fuel argument that starts at
the string's length, which always suffices since a match consumes at least
one character. -/
def pyReplaceAux (pat rep : List Char) : ℕ → List Char → List Char
  | _, [] => []
  | 0, s => s
  | fuel + 1, c :: rest =>
    if pat ≠ [] ∧ pat.isPrefixOf (c :: rest) then
      rep ++ pyReplaceAux pat rep fuel ((c :: rest).drop pat.length)
    else c :: pyReplaceAux pat rep fuel rest

def pyReplace (pat rep s : List Char) : List Char :=
  pyReplaceAux pat rep s.length s

/-! ## Model-name parsing (readcatalog.py, `CMCCatalog._parse_model_name`)

Line 78 builds `dict(zip(["N", "rv", "rg", "Z"], model_name.split("_")))` —
`zip` silently truncates to the shorter of the two lists — then, per key,
removes every occurrence of the key from its token (`str.replace`) and
casts with `float` (additionally truncated by `int` for `N`).  `pyFloat`
models Python's `float()` on the decimal-literal grammar ([sign] digits
[. digits] [(e|E) [sign] digits]) that the model names use; a
non-numeric string yields `none` (Python raises `ValueError`). -/

def digitsVal (cs : List Char) : ℕ :=
  cs.foldl (fun a c => 10 * a + (c.toNat - 48)) 0

def stripSign (cs : List Char) : Bool × List Char :=
  match cs with
  | '+' :: rest => (true, rest)
  | '-' :: rest => (false, rest)
  | _ => (true, cs)

/-- The exponent suffix of a float literal applied to a mantissa given as
numerator and denominator (the value is `num / den * 10 ^ (± exp)`). -/
def pyFloatExp (num : ℤ) (den : ℕ) (r : List Char) : Option ℚ :=
  let (epos, r2) := stripSign r
  let ed := r2.takeWhile Char.isDigit
  let r3 := r2.dropWhile Char.isDigit
  if ed.isEmpty || !r3.isEmpty then none
  else if epos then some (mkRat (num * 10 ^ digitsVal ed) den)
  else some (mkRat num (den * 10 ^ digitsVal ed))

def pyFloat (s : List Char) : Option ℚ :=
  let (pos, cs) := stripSign s
  let ip := cs.takeWhile Char.isDigit
  let rest1 := cs.dropWhile Char.isDigit
  let (fp, rest2) :=
    match rest1 with
    | '.' :: r => (r.takeWhile Char.isDigit, r.dropWhile Char.isDigit)
    | _ => ([], rest1)
  if ip.isEmpty && fp.isEmpty then none
  else
    let mantNum : ℤ := digitsVal ip * 10 ^ fp.length + digitsVal fp
    let num : ℤ := if pos then mantNum else -mantNum
    let den : ℕ := 10 ^ fp.length
    match rest2 with
    | [] => some (mkRat num den)
    | 'e' :: r => pyFloatExp num den r
    | 'E' :: r => pyFloatExp num den r
    | _ => none

/-- Python `int()` applied to a float: truncation toward zero
(`Int.tdiv` is truncating division, and `q.num / q.den` is `q` in lowest
terms). -/
def pyTruncInt (q : ℚ) : ℤ := Int.tdiv q.num (q.den : ℤ)

inductive PVal where
  | pint (z : ℤ)
  | pfloat (q : ℚ)
deriving DecidableEq

def kremerKeys : List (List Char) := [['N'], ['r', 'v'], ['r', 'g'], ['Z']]

instance {e a : Type} [DecidableEq e] [DecidableEq a] : DecidableEq (Except e a)
  | .ok x, .ok y =>
    if h : x = y then isTrue (by rw [h]) else isFalse fun hc => h (Except.ok.inj hc)
  | .ok _, .error _ => isFalse fun hc => Except.noConfusion hc
  | .error _, .ok _ => isFalse fun hc => Except.noConfusion hc
  | .error u, .error v =>
    if h : u = v then isTrue (by rw [h]) else isFalse fun hc => h (Except.error.inj hc)

/-- Effectful map over a list in the `Except` monad, failing on the first
error (the semantics of the Python `for` loop over the zipped dict). -/
def mapExcept {a b : Type} (g : a → Except String b) : List a → Except String (List b)
  | [] => .ok []
  | x :: xs =>
    match g x with
    | .error e => .error e
    | .ok y =>
      match mapExcept g xs with
      | .error e => .error e
      | .ok ys => .ok (y :: ys)

def parseModelName (name : List Char) : Except String (List (List Char × PVal)) :=
  let toks := pySplitChar '_' name
  mapExcept (fun kv =>
    match pyFloat (pyReplace kv.1 [] kv.2) with
    | none => .error "ValueError"
    | some q => .ok (kv.1, if kv.1 = ['N'] then PVal.pint (pyTruncInt q) else PVal.pfloat q))
    (kremerKeys.zip toks)

/-! ## Observed-catalog loading (aggregate.py, `GCCatalog.__init__`)

Lines 19-43: the Baumgardt table (structural parameters) and the Harris
table (metallicities) are loaded, Harris rows with the `[Fe/H] == -100`
sentinel are dropped, and `pd.merge(..., how="inner", on="Cluster")` joins
them on the cluster name.  `pd.merge` raises nothing on key-disjoint
inputs; the loader is modelled in `Except` so that the claimed `JoinError`
would be statable.  Payload columns other than the metallicity are
abstracted by a type parameter. -/

def innerMerge {α β : Type} (left : List (String × α)) (right : List (String × β)) :
    List (String × α × β) :=
  left.flatMap fun l => (right.filter fun r => r.1 == l.1).map fun r => (l.1, l.2, r.2)

def gcCatalogInit {α : Type} (baumgardt : List (String × α)) (harris : List (String × ℚ)) :
    Except String (List (String × α × ℚ)) :=
  .ok (innerMerge baumgardt (harris.filter fun r => decide (r.2 ≠ -100)))

/-! ## Header parsing (readoutput.py, `_dat_file._get_column_names`)

Lines 54-76: the header line is split at whitespace (Python `str.split()`
with no argument: runs of whitespace, no empty tokens), each alias
character is replaced by `":"` in every token, and each token is mapped to
`token.split(":")[1]` — the second field of the colon-split, which raises
`IndexError` when a token has no colon. -/

def pySplitWsAux : ℕ → List Char → List (List Char)
  | _, [] => []
  | 0, _ => []
  | fuel + 1, c :: rest =>
    if c.isWhitespace then pySplitWsAux fuel rest
    else ((c :: rest).takeWhile fun d => !d.isWhitespace) ::
      pySplitWsAux fuel ((c :: rest).dropWhile fun d => !d.isWhitespace)

/-- Python `str.split()` with no argument. -/
def pySplitWs (s : List Char) : List (List Char) :=
  pySplitWsAux s.length s

/-- The whitespace tokens of the header line after the alias-to-colon
substitutions (the loop over `colon_aliases`). -/
def headerTokens (aliases : List Char) (line : List Char) : List (List Char) :=
  aliases.foldl (fun cur ca => cur.map fun c => pyReplace [ca] [':'] c) (pySplitWs line)

def getColumnNames (aliases : List Char) (line : List Char) :
    Except String (List (List Char)) :=
  mapExcept (fun c =>
    match (pySplitChar ':' c).get? 1 with
    | some nm => .ok nm
    | none => .error "IndexError") (headerTokens aliases line)

/-- The spec's description of the kept text: everything after the first
occurrence of the separator in the token. -/
def afterFirstSep (sep : Char) : List Char → List Char
  | [] => []
  | c :: rest => if c = sep then rest else afterFirstSep sep rest

/-! ## Bin construction (aggregate.py, `GCCatalog.match_to_cmc_models`)

Lines 85-106: iterating over the sorted unique simulated values, the first
bin gets lower edge `-inf` and upper edge the midpoint of the first two
values — indexing `xs[i + 1]`, which raises an uncaught `IndexError` when
only one value exists; every later bin's lower edge is the carried previous
upper edge; interior upper edges are midpoints of adjacent values; the last
bin's upper edge is `+inf`.  Cluster membership in a bin is the filter
`lo <= v < hi` of lines 109-114. -/

inductive BinEdge where
  | ninf
  | fin (q : ℚ)
  | pinf
deriving DecidableEq

/-- Midpoint of adjacent sorted values, the interior bin edge of line 89. -/
def midpt (xs : List ℚ) (j : ℕ) : ℚ := (xs.getD j 0 + xs.getD (j + 1) 0) / 2

/-- The loop body for indices `i ≥ 1`, carrying the previous upper edge;
the fuel counts the remaining iterations, and the bound check models the
numpy index `xs[i + 1]` raising `IndexError` when out of range. -/
def mkBinsAux (xs : List ℚ) (n : ℕ) : ℕ → ℕ → ℚ → Except String (List (BinEdge × BinEdge))
  | 0, _, _ => .ok []
  | fuel + 1, i, prevHi =>
    if i = n - 1 then .ok [(.fin prevHi, .pinf)]
    else if i + 1 < xs.length then
      Except.map (fun rest => (.fin prevHi, .fin ((xs.getD i 0 + xs.getD (i + 1) 0) / 2)) :: rest)
        (mkBinsAux xs n fuel (i + 1) ((xs.getD i 0 + xs.getD (i + 1) 0) / 2))
    else .error "IndexError"

def mkBins (xs : List ℚ) : Except String (List (BinEdge × BinEdge)) :=
  match xs with
  | [] => .ok []
  | _ :: _ =>
    if 1 < xs.length then
      Except.map (fun bins => (.ninf, .fin ((xs.getD 0 0 + xs.getD 1 0) / 2)) :: bins)
        (mkBinsAux xs xs.length (xs.length - 1) 1 ((xs.getD 0 0 + xs.getD 1 0) / 2))
    else .error "IndexError"

/-- Closed-form edges of bin `i`. -/
def binLo (xs : List ℚ) (i : ℕ) : BinEdge :=
  if i = 0 then .ninf else .fin (midpt xs (i - 1))

def binHi (xs : List ℚ) (i : ℕ) : BinEdge :=
  if i = xs.length - 1 then .pinf else .fin (midpt xs i)

/-- `lo <= v` of the cluster filter (line 110/112). -/
def edgeLE : BinEdge → ℚ → Prop
  | .ninf, _ => True
  | .fin q, v => q ≤ v
  | .pinf, _ => False

/-- `v < hi` of the cluster filter (line 111/113). -/
def ltEdge : ℚ → BinEdge → Prop
  | _, .pinf => True
  | v, .fin q => v < q
  | _, .ninf => False

/-- Strict lower-edge bound, for "strictly inside". -/
def edgeLT : BinEdge → ℚ → Prop
  | .ninf, _ => True
  | .fin q, v => q < v
  | .pinf, _ => False

def binMem (b : BinEdge × BinEdge) (v : ℚ) : Prop := edgeLE b.1 v ∧ ltEdge v b.2

theorem idxminList_lt_length (l : List ℚ) (hl : l ≠ []) : idxminList l < l.length := by
  match l with
  | [x] => simp [idxminList]
  | x :: y :: ys =>
    have ih := idxminList_lt_length (y :: ys) (by simp)
    rw [idxminList]
    split
    · simpa using Nat.succ_lt_succ ih
    · simp

theorem idxminList_min (l : List ℚ) (k : ℕ) (hk : k < l.length) :
    l.getD (idxminList l) 0 ≤ l.getD k 0 := by
  match l with
  | [x] =>
    match k with
    | 0 => simp [idxminList]
    | k + 1 => simp at hk
  | x :: y :: ys =>
    have ih := fun k hk => idxminList_min (y :: ys) k hk
    rw [idxminList]
    split
    · rename_i hlt
      match k with
      | 0 => simpa using le_of_lt hlt
      | k + 1 => simpa using ih k (by simpa using hk)
    · rename_i hge
      push_neg at hge
      match k with
      | 0 => simp
      | k + 1 =>
        simp only [List.getD_cons_zero, List.getD_cons_succ]
        exact le_trans hge (ih k (by simpa using hk))

theorem idxminList_first (l : List ℚ) (k : ℕ) (hk : k < idxminList l) :
    l.getD (idxminList l) 0 < l.getD k 0 := by
  match l with
  | [] => simp [idxminList] at hk
  | [x] => simp [idxminList] at hk
  | x :: y :: ys =>
    have ih := fun k hk => idxminList_first (y :: ys) k hk
    rw [idxminList] at hk ⊢
    split
    · rename_i hlt
      match k with
      | 0 => simpa using hlt
      | k + 1 =>
        rw [if_pos hlt] at hk
        simpa using ih k (by omega)
    · rename_i hge
      rw [if_neg hge] at hk
      omega

/-- For an index below the list's length, `getD` on a mapped list is the
function applied to `getD` on the original list. -/
theorem getDMapEq {α β : Type} (f : α → β) (l : List α) (d : α) (w : β) (k : ℕ)
    (hk : k < l.length) : (l.map f).getD k w = f (l.getD k d) := by
  rw [List.getD_eq_getElem _ _ (by simpa using hk), List.getD_eq_getElem _ _ hk,
    List.getElem_map]

theorem foldlMin_le (xs : List ℚ) :
    ∀ x, xs.foldl min x ≤ x ∧ ∀ u ∈ xs, xs.foldl min x ≤ u := by
  induction xs with
  | nil => intro x; simp
  | cons y ys ih =>
    intro x
    refine ⟨le_trans (ih (min x y)).1 (min_le_left x y), ?_⟩
    intro u hu
    rcases List.mem_cons.mp hu with h | h
    · subst h; exact le_trans (ih (min x u)).1 (min_le_right x u)
    · exact (ih (min x y)).2 u h

theorem foldlMin_mem (xs : List ℚ) :
    ∀ x, xs.foldl min x = x ∨ xs.foldl min x ∈ xs := by
  induction xs with
  | nil => intro x; simp
  | cons y ys ih =>
    intro x
    rcases ih (min x y) with h | h
    · rcases min_choice x y with hc | hc
      · left; simpa [hc] using h
      · right; rw [List.foldl_cons, h, hc]; exact List.mem_cons_self y ys
    · right; exact List.mem_cons_of_mem y h

theorem foldlMax_le (xs : List ℚ) :
    ∀ x, x ≤ xs.foldl max x ∧ ∀ u ∈ xs, u ≤ xs.foldl max x := by
  induction xs with
  | nil => intro x; simp
  | cons y ys ih =>
    intro x
    refine ⟨le_trans (le_max_left x y) (ih (max x y)).1, ?_⟩
    intro u hu
    rcases List.mem_cons.mp hu with h | h
    · subst h; exact le_trans (le_max_right x u) (ih (max x u)).1
    · exact (ih (max x y)).2 u h

theorem foldlMax_mem (xs : List ℚ) :
    ∀ x, xs.foldl max x = x ∨ xs.foldl max x ∈ xs := by
  induction xs with
  | nil => intro x; simp
  | cons y ys ih =>
    intro x
    rcases ih (max x y) with h | h
    · rcases max_choice x y with hc | hc
      · left; simpa [hc] using h
      · right; rw [List.foldl_cons, h, hc]; exact List.mem_cons_self y ys
    · right; exact List.mem_cons_of_mem y h

theorem minList_mem (l : List ℚ) (hl : l ≠ []) : minList l ∈ l := by
  match l with
  | x :: xs =>
    rcases foldlMin_mem xs x with h | h
    · rw [minList, h]; exact List.mem_cons_self x xs
    · exact List.mem_cons_of_mem x (by rw [minList]; exact h)

theorem minList_le (l : List ℚ) (u : ℚ) (hu : u ∈ l) : minList l ≤ u := by
  match l with
  | x :: xs =>
    rcases List.mem_cons.mp hu with h | h
    · subst h; exact (foldlMin_le xs u).1
    · exact (foldlMin_le xs x).2 u h

theorem maxList_mem (l : List ℚ) (hl : l ≠ []) : maxList l ∈ l := by
  match l with
  | x :: xs =>
    rcases foldlMax_mem xs x with h | h
    · rw [maxList, h]; exact List.mem_cons_self x xs
    · exact List.mem_cons_of_mem x (by rw [maxList]; exact h)

theorem le_maxList (l : List ℚ) (u : ℚ) (hu : u ∈ l) : u ≤ maxList l := by
  match l with
  | x :: xs =>
    rcases List.mem_cons.mp hu with h | h
    · subst h; exact (foldlMax_le xs u).1
    · exact (foldlMax_le xs x).2 u h

/-- C1: in every bin where both the cluster subset and the snapshot subset
are non-empty, the matching engine assigns each observed cluster the
simulated snapshot of minimum summed-squared-difference distance over the
comparison parameters, breaking exact ties by the first (lowest-position)
snapshot; in particular, for two clusters whose distance rows to two
snapshots are (2.0, 5.0) and (1.0, 3.0), both are assigned the first
snapshot. -/
theorem match_assigns_first_min_distance :
    (∀ (clusters snaps : List (ℚ × ℚ)), snaps ≠ [] →
      ∀ i, i < clusters.length →
        (matchClusters clusters snaps).getD i 0 < snaps.length ∧
        (∀ k, k < snaps.length →
          matchDist (clusters.getD i (0, 0))
              (snaps.getD ((matchClusters clusters snaps).getD i 0) (0, 0)) ≤
            matchDist (clusters.getD i (0, 0)) (snaps.getD k (0, 0))) ∧
        (∀ k, k < (matchClusters clusters snaps).getD i 0 →
          matchDist (clusters.getD i (0, 0))
              (snaps.getD ((matchClusters clusters snaps).getD i 0) (0, 0)) <
            matchDist (clusters.getD i (0, 0)) (snaps.getD k (0, 0)))) ∧
    idxminList [2, 5] = 0 ∧ idxminList [1, 3] = 0 := by
  refine ⟨?_, by decide, by decide⟩
  intro clusters snaps hs i hi
  have hmc : (matchClusters clusters snaps).getD i 0 =
      idxminList (snaps.map (matchDist (clusters.getD i (0, 0)))) := by
    simpa [matchClusters] using
      getDMapEq (fun c => idxminList (snaps.map (matchDist c))) clusters (0, 0) 0 i hi
  set c := clusters.getD i (0, 0) with hc
  set ds := snaps.map (matchDist c) with hds
  have hne : ds ≠ [] := by
    rw [hds]
    intro hnil
    exact hs (List.map_eq_nil_iff.mp hnil)
  have hjlt : idxminList ds < snaps.length := by
    simpa [hds] using idxminList_lt_length ds hne
  have hconv : ∀ m, m < snaps.length →
      ds.getD m 0 = matchDist c (snaps.getD m (0, 0)) := by
    intro m hm
    exact getDMapEq (matchDist c) snaps (0, 0) 0 m hm
  refine ⟨by rw [hmc]; exact hjlt, ?_, ?_⟩
  · intro k hk
    have h := idxminList_min ds k (by simpa [hds] using hk)
    rw [hconv _ hjlt, hconv _ hk] at h
    rw [hmc]
    exact h
  · intro k hk
    rw [hmc] at hk
    have hklt : k < snaps.length := lt_trans hk hjlt
    have h := idxminList_first ds k hk
    rw [hconv _ hjlt, hconv _ hklt] at h
    rw [hmc]
    exact h

theorem match_assigns_first_min_distance_witness :
    (matchClusters [((1 : ℚ), (1 : ℚ))] [((0 : ℚ), (0 : ℚ)), ((3 : ℚ), (4 : ℚ))]).getD 0 0 < 2 := by
  have h := match_assigns_first_min_distance.1
    [((1 : ℚ), (1 : ℚ))] [((0 : ℚ), (0 : ℚ)), ((3 : ℚ), (4 : ℚ))] (by decide) 0 (by decide)
  simpa using h.1

/-- C3: with recorded snapshot times [0, 5000, 10000, 13000] and target
times [9000, 11000], the nearest-time selection returns, for each target,
the row whose time is 10000; the duplicate match appears twice in the
result. -/
theorem select_times_nearest_example :
    selectDatData [0, 5000, 10000, 13000] [9000, 11000] = [10000, 10000] := by
  decide

/-- C4: snapshot selection first restricts a model's rows to times in the
closed interval from the minimum to the maximum target time (and those
bounds really are the extrema of the target list); if no rows remain the
model contributes no rows, otherwise it contributes exactly one row per
target, each an in-range row of minimum absolute time difference to its
target. -/
theorem select_dat_range_and_nearest (times targets : List ℚ) (ht : targets ≠ []) :
    (minList targets ∈ targets ∧ ∀ u ∈ targets, minList targets ≤ u) ∧
    (maxList targets ∈ targets ∧ ∀ u ∈ targets, u ≤ maxList targets) ∧
    (times.filter (fun t => decide (minList targets ≤ t) && decide (t ≤ maxList targets)) = [] →
      selectDatData times targets = []) ∧
    (times.filter (fun t => decide (minList targets ≤ t) && decide (t ≤ maxList targets)) ≠ [] →
      (selectDatData times targets).length = targets.length ∧
      ∀ k, k < targets.length →
        (selectDatData times targets).getD k 0 ∈
          times.filter (fun t => decide (minList targets ≤ t) && decide (t ≤ maxList targets)) ∧
        ∀ r ∈ times.filter
            (fun t => decide (minList targets ≤ t) && decide (t ≤ maxList targets)),
          |(selectDatData times targets).getD k 0 - targets.getD k 0| ≤
            |r - targets.getD k 0|) := by
  refine ⟨⟨minList_mem targets ht, fun u hu => minList_le targets u hu⟩,
    ⟨maxList_mem targets ht, fun u hu => le_maxList targets u hu⟩, ?_, ?_⟩
  · intro h
    simp [selectDatData, h]
  · intro h
    set inR := times.filter
      (fun t => decide (minList targets ≤ t) && decide (t ≤ maxList targets)) with hinR
    have hsel : selectDatData times targets =
        targets.map fun tgt => inR.getD (idxminList (inR.map fun t => |t - tgt|)) 0 := by
      rw [selectDatData]
      simp only [← hinR]
      rw [if_neg (by simpa [List.isEmpty_iff] using h)]
    refine ⟨by rw [hsel]; exact List.length_map _ _, ?_⟩
    intro k hk
    have hgk : (selectDatData times targets).getD k 0 =
        inR.getD (idxminList (inR.map fun t => |t - targets.getD k 0|)) 0 := by
      rw [hsel]
      exact getDMapEq (fun tgt => inR.getD (idxminList (inR.map fun t => |t - tgt|)) 0)
        targets 0 0 k hk
    set tgt := targets.getD k 0 with htgt
    set j := idxminList (inR.map fun t => |t - tgt|) with hj
    have hjlt : j < inR.length := by
      have hmapne : (inR.map fun t => |t - tgt|) ≠ [] := by
        intro hnil
        exact h (List.map_eq_nil_iff.mp hnil)
      simpa [hj] using idxminList_lt_length _ hmapne
    have hconv : ∀ m, m < inR.length →
        (inR.map fun t => |t - tgt|).getD m 0 = |inR.getD m 0 - tgt| := by
      intro m hm
      exact getDMapEq (fun t => |t - tgt|) inR 0 0 m hm
    constructor
    · rw [hgk, List.getD_eq_getElem _ _ hjlt]
      exact List.getElem_mem hjlt
    · intro r hr
      rcases List.mem_iff_getElem.mp hr with ⟨m, hm, hmr⟩
      have h1 := idxminList_min (inR.map fun t => |t - tgt|) m (by simpa using hm)
      rw [hconv _ hjlt, hconv _ hm] at h1
      rw [hgk]
      rw [List.getD_eq_getElem _ _ hm, hmr] at h1
      exact h1

theorem select_dat_range_and_nearest_witness :
    (selectDatData [0, 5000, 10000, 13000] [9000, 11000]).length = 2 := by
  have h := select_dat_range_and_nearest [0, 5000, 10000, 13000] [9000, 11000] (by decide)
  have h2 := (h.2.2.2 (by decide)).1
  simpa using h2

/-- Complete case analysis of one successful `convert_units` iteration:
either the column was already converted (skip), or it was present and
unconverted (multiply and mark), or it was absent with `missing_ok`. -/
theorem convertOne_ok_cases (ud : String → Option ℚ) (mok : Bool)
    (cols : List DatCol) (nu : String × List String) (st2 : List DatCol)
    (h : convertOne ud mok cols nu = .ok st2) :
    (∃ c, cols.find? (fun c => c.cname == nu.1) = some c ∧ c.converted = true ∧ st2 = cols) ∨
    (∃ c f, cols.find? (fun c => c.cname == nu.1) = some c ∧ c.converted = false ∧
      parseUnitsString ud nu.2 = .ok f ∧
      st2 = cols.map fun d =>
        if d.cname = nu.1 then ⟨d.cname, d.vals.map (· * f), true⟩ else d) ∨
    (cols.find? (fun c => c.cname == nu.1) = none ∧ mok = true ∧ st2 = cols) := by
  rw [convertOne] at h
  split at h
  · rename_i c hc
    split at h
    · rename_i hconv
      left
      exact ⟨c, hc, hconv, by injection h with h2; exact h2.symm⟩
    · rename_i hconv
      split at h
      · rename_i f hf
        right; left
        exact ⟨c, f, hc, by simpa using hconv, hf, by injection h with h2; exact h2.symm⟩
      · cases h
  · rename_i hc
    split at h
    · rename_i hmok
      right; right
      exact ⟨hc, by simpa using hmok, by injection h with h2; exact h2.symm⟩
    · cases h

theorem find?_map_cname (g : DatCol → DatCol) (hg : ∀ d, (g d).cname = d.cname)
    (l : List DatCol) (n : String) :
    (l.map g).find? (fun c => c.cname == n) =
      Option.map g (l.find? (fun c => c.cname == n)) := by
  induction l with
  | nil => simp
  | cons d ds ih =>
    cases hd : (d.cname == n) with
    | true => simp [List.find?_cons, hg d, hd]
    | false => simp [List.find?_cons, hg d, hd, ih]

theorem convertOne_preserves_conv (ud : String → Option ℚ) (mok : Bool)
    (cols : List DatCol) (nu : String × List String) (st2 : List DatCol)
    (h : convertOne ud mok cols nu = .ok st2) (n : String) (c : DatCol)
    (hc : cols.find? (fun c => c.cname == n) = some c) (hcv : c.converted = true) :
    ∃ c2, st2.find? (fun c => c.cname == n) = some c2 ∧ c2.converted = true := by
  rcases convertOne_ok_cases ud mok cols nu st2 h with
    ⟨_, _, _, hst⟩ | ⟨_, f, _, _, _, hst⟩ | ⟨_, _, hst⟩
  · exact ⟨c, by rw [hst]; exact hc, hcv⟩
  · subst hst
    have hfind : (cols.map fun d =>
        if d.cname = nu.1 then (⟨d.cname, d.vals.map (· * f), true⟩ : DatCol) else d).find?
          (fun c => c.cname == n) =
        some (if c.cname = nu.1 then (⟨c.cname, c.vals.map (· * f), true⟩ : DatCol) else c) := by
      rw [find?_map_cname _ (fun d => by split <;> rfl) cols n, hc]
      rfl
    refine ⟨_, hfind, ?_⟩
    by_cases hcc : c.cname = nu.1
    · simp [hcc]
    · simpa [hcc] using hcv
  · exact ⟨c, by rw [hst]; exact hc, hcv⟩

theorem convertOne_preserves_none (ud : String → Option ℚ) (mok : Bool)
    (cols : List DatCol) (nu : String × List String) (st2 : List DatCol)
    (h : convertOne ud mok cols nu = .ok st2) (n : String)
    (hc : cols.find? (fun c => c.cname == n) = none) :
    st2.find? (fun c => c.cname == n) = none := by
  rcases convertOne_ok_cases ud mok cols nu st2 h with
    ⟨_, _, _, hst⟩ | ⟨_, f, _, _, _, hst⟩ | ⟨_, _, hst⟩
  · rw [hst]; exact hc
  · subst hst
    rw [find?_map_cname _ (fun d => by split <;> rfl) cols n, hc]
    rfl
  · rw [hst]; exact hc

theorem convertOne_sets (ud : String → Option ℚ) (mok : Bool)
    (cols : List DatCol) (nu : String × List String) (st2 : List DatCol)
    (h : convertOne ud mok cols nu = .ok st2) (c : DatCol)
    (hc : cols.find? (fun c => c.cname == nu.1) = some c) :
    ∃ c2, st2.find? (fun c => c.cname == nu.1) = some c2 ∧ c2.converted = true := by
  rcases convertOne_ok_cases ud mok cols nu st2 h with
    ⟨c1, hc1, hcv, hst⟩ | ⟨c1, f, hc1, _, _, hst⟩ | ⟨hc1, _, hst⟩
  · exact ⟨c1, by rw [hst]; exact hc1, hcv⟩
  · subst hst
    have hname : c1.cname = nu.1 := by
      have := List.find?_some hc1
      simpa using this
    have hfind : (cols.map fun d =>
        if d.cname = nu.1 then (⟨d.cname, d.vals.map (· * f), true⟩ : DatCol) else d).find?
          (fun c => c.cname == nu.1) =
        some (if c1.cname = nu.1 then (⟨c1.cname, c1.vals.map (· * f), true⟩ : DatCol) else c1) := by
      rw [find?_map_cname _ (fun d => by split <;> rfl) cols nu.1, hc1]
      rfl
    refine ⟨_, hfind, ?_⟩
    simp [hname]
  · rw [hc1] at hc
    cases hc

theorem convertUnits_nil (ud : String → Option ℚ) (mok : Bool) (cols : List DatCol) :
    convertUnits ud mok [] cols = .ok cols := rfl

theorem convertUnits_cons (ud : String → Option ℚ) (mok : Bool)
    (nu : String × List String) (rest : List (String × List String)) (cols : List DatCol) :
    convertUnits ud mok (nu :: rest) cols =
      (convertOne ud mok cols nu).bind fun st1 => convertUnits ud mok rest st1 := by
  rw [convertUnits, List.foldlM_cons]
  rfl

theorem convertUnits_preserves_conv (ud : String → Option ℚ) (mok : Bool)
    (req : List (String × List String)) :
    ∀ (cols st2 : List DatCol), convertUnits ud mok req cols = .ok st2 →
      ∀ (n : String) (c : DatCol), cols.find? (fun c => c.cname == n) = some c →
        c.converted = true →
        ∃ c2, st2.find? (fun c => c.cname == n) = some c2 ∧ c2.converted = true := by
  induction req with
  | nil =>
    intro cols st2 h n c hc hcv
    rw [convertUnits_nil] at h
    injection h with h2
    exact ⟨c, by rw [← h2]; exact hc, hcv⟩
  | cons nu rest ih =>
    intro cols st2 h n c hc hcv
    rw [convertUnits_cons] at h
    cases hstep : convertOne ud mok cols nu with
    | error e => rw [hstep] at h; simp [Except.bind] at h
    | ok st1 =>
      rw [hstep] at h
      simp only [Except.bind] at h
      rcases convertOne_preserves_conv ud mok cols nu st1 hstep n c hc hcv with ⟨c1, hc1, hcv1⟩
      exact ih st1 st2 h n c1 hc1 hcv1

theorem convertUnits_preserves_none (ud : String → Option ℚ) (mok : Bool)
    (req : List (String × List String)) :
    ∀ (cols st2 : List DatCol), convertUnits ud mok req cols = .ok st2 →
      ∀ n : String, cols.find? (fun c => c.cname == n) = none →
        st2.find? (fun c => c.cname == n) = none := by
  induction req with
  | nil =>
    intro cols st2 h n hc
    rw [convertUnits_nil] at h
    injection h with h2
    rw [← h2]
    exact hc
  | cons nu rest ih =>
    intro cols st2 h n hc
    rw [convertUnits_cons] at h
    cases hstep : convertOne ud mok cols nu with
    | error e => rw [hstep] at h; simp [Except.bind] at h
    | ok st1 =>
      rw [hstep] at h
      simp only [Except.bind] at h
      exact ih st1 st2 h n (convertOne_preserves_none ud mok cols nu st1 hstep n hc)

theorem convertUnits_of_satisfied (ud : String → Option ℚ) (mok : Bool)
    (req : List (String × List String)) :
    ∀ cols : List DatCol, reqSatisfied mok req cols → convertUnits ud mok req cols = .ok cols := by
  induction req with
  | nil => intro cols _; exact convertUnits_nil ud mok cols
  | cons nu rest ih =>
    intro cols hsat
    rw [convertUnits_cons]
    have hstep : convertOne ud mok cols nu = .ok cols := by
      rcases hsat nu (List.mem_cons_self nu rest) with ⟨c, hc, hcv⟩ | ⟨hc, hmok⟩
      · rw [convertOne, hc]
        simp [hcv]
      · rw [convertOne, hc]
        simp [hmok]
    rw [hstep]
    simp only [Except.bind]
    exact ih cols fun mu hmu => hsat mu (List.mem_cons_of_mem nu hmu)

theorem convertUnits_satisfies (ud : String → Option ℚ) (mok : Bool)
    (req : List (String × List String)) :
    ∀ (cols st2 : List DatCol), convertUnits ud mok req cols = .ok st2 →
      reqSatisfied mok req st2 := by
  induction req with
  | nil => intro cols st2 _ nu hnu; cases hnu
  | cons nu rest ih =>
    intro cols st2 h mu hmu
    rw [convertUnits_cons] at h
    cases hstep : convertOne ud mok cols nu with
    | error e => rw [hstep] at h; simp [Except.bind] at h
    | ok st1 =>
      rw [hstep] at h
      simp only [Except.bind] at h
      rcases List.mem_cons.mp hmu with hmu1 | hmu2
      · subst hmu1
        rcases convertOne_ok_cases ud mok cols mu st1 hstep with
          ⟨c, hc, hcv, hst⟩ | ⟨c, f, hc, _, _, hst⟩ | ⟨hc, hmok, hst⟩
        · subst hst
          rcases convertUnits_preserves_conv ud mok rest st1 st2 h mu.1 c hc hcv with
            ⟨c2, hc2, hcv2⟩
          exact Or.inl ⟨c2, hc2, hcv2⟩
        · rcases convertOne_sets ud mok cols mu st1 hstep c hc with ⟨c1, hc1, hcv1⟩
          rcases convertUnits_preserves_conv ud mok rest st1 st2 h mu.1 c1 hc1 hcv1 with
            ⟨c2, hc2, hcv2⟩
          exact Or.inl ⟨c2, hc2, hcv2⟩
        · subst hst
          exact Or.inr ⟨convertUnits_preserves_none ud mok rest st1 st2 h mu.1 hc, hmok⟩
      · exact ih st1 st2 h mu hmu2

/-- C5: converting twice with the same request equals converting once: a
successful `convert_units` call leaves the table in a state where the same
call is skipped silently and returns the table unchanged. -/
theorem convert_units_idempotent (ud : String → Option ℚ) (mok : Bool)
    (req : List (String × List String)) (cols cols2 : List DatCol)
    (h : convertUnits ud mok req cols = .ok cols2) :
    convertUnits ud mok req cols2 = .ok cols2 :=
  convertUnits_of_satisfied ud mok req cols2 (convertUnits_satisfies ud mok req cols cols2 h)

theorem convert_units_idempotent_witness :
    convertUnits exampleUnitdict false [("t", ["cm"])]
        [⟨"t", [6], true⟩] = .ok [⟨"t", [6], true⟩] :=
  convert_units_idempotent exampleUnitdict false [("t", ["cm"])]
    [⟨"t", [3], false⟩] [⟨"t", [6], true⟩] (by
      simp [convertUnits, convertOne, parseUnitsString, parseUnitsAux, exampleUnitdict,
        List.foldlM]
      norm_num)

/-- C6 counterexample: the claim says a unit expression with two operators
in a row fails with a `GrammarError`, but `_parse_units_string` simply
resets the pending operator, so `"cm * * s"` parses successfully
(to 1 · 2 · 5 = 10). -/
theorem parse_units_double_op_accepted :
    parseUnitsString exampleUnitdict ["cm", "*", "*", "s"] = .ok 10 := by
  simp [parseUnitsString, parseUnitsAux, exampleUnitdict]
  norm_num

theorem parseUnitsAux_cons (ud : String → Option ℚ) (f : ℚ) (op : Option UnitOp)
    (u : String) (rest : List String) :
    parseUnitsAux ud f op (u :: rest) =
      if u = "*" then parseUnitsAux ud f (some .mul) rest
      else if u = "/" then parseUnitsAux ud f (some .div) rest
      else
        match op with
        | some .mul =>
          match ud u with
          | some x => parseUnitsAux ud (f * x) none rest
          | none => .error "KeyError"
        | some .div =>
          match ud u with
          | some x => parseUnitsAux ud (f / x) none rest
          | none => .error "KeyError"
        | none => .error "Unrecognized sequence in string" := rfl

theorem parseUnitsAux_alt (ud : String → Option ℚ) (rest : List (Bool × String)) :
    ∀ f : ℚ, (∀ p ∈ rest, p.2 ≠ "*" ∧ p.2 ≠ "/" ∧ (ud p.2).isSome) →
      parseUnitsAux ud f none (rest.flatMap fun p => [if p.1 then "*" else "/", p.2]) =
        .ok (rest.foldl (fun f p => applyUnitOp f p.1 ((ud p.2).getD 1)) f) := by
  induction rest with
  | nil => intro f _; rfl
  | cons p rest ih =>
    obtain ⟨o, u⟩ := p
    intro f hp
    obtain ⟨hp1, hp2, hp3⟩ := hp (o, u) (List.mem_cons_self _ _)
    rcases Option.isSome_iff_exists.mp hp3 with ⟨x, hx⟩
    have hrest := fun q hq => hp q (List.mem_cons_of_mem _ hq)
    cases o with
    | true =>
      show parseUnitsAux ud f none
          ("*" :: u :: rest.flatMap fun p => [if p.1 then "*" else "/", p.2]) = _
      rw [parseUnitsAux_cons, if_pos rfl]
      rw [parseUnitsAux_cons, if_neg hp1, if_neg hp2]
      simp only [hx]
      rw [ih (f * x) hrest]
      simp [applyUnitOp, hx]
    | false =>
      show parseUnitsAux ud f none
          ("/" :: u :: rest.flatMap fun p => [if p.1 then "*" else "/", p.2]) = _
      rw [parseUnitsAux_cons, if_neg (by decide), if_pos rfl]
      rw [parseUnitsAux_cons, if_neg hp1, if_neg hp2]
      simp only [hx]
      rw [ih (f / x) hrest]
      simp [applyUnitOp, hx]

theorem parseUnitsAux_double_op (ud : String → Option ℚ) (post : List String)
    (a b : String) (ha : a = "*" ∨ a = "/") (hb : b = "*" ∨ b = "/") :
    ∀ (pre : List String) (f : ℚ) (op : Option UnitOp),
      parseUnitsAux ud f op (pre ++ a :: b :: post) =
        parseUnitsAux ud f op (pre ++ b :: post) := by
  intro pre
  induction pre with
  | nil =>
    intro f op
    simp only [List.nil_append]
    rcases ha with ha | ha <;> rcases hb with hb | hb <;> subst ha <;> subst hb <;>
      simp [parseUnitsAux]
  | cons t pre ih =>
    intro f op
    simp only [List.cons_append]
    by_cases ht1 : t = "*"
    · rw [parseUnitsAux_cons, if_pos ht1, parseUnitsAux_cons, if_pos ht1]
      exact ih f (some .mul)
    · by_cases ht2 : t = "/"
      · rw [parseUnitsAux_cons, if_neg ht1, if_pos ht2, parseUnitsAux_cons, if_neg ht1, if_pos ht2]
        exact ih f (some .div)
      · cases op with
        | none => rw [parseUnitsAux_cons, if_neg ht1, if_neg ht2, parseUnitsAux_cons, if_neg ht1,
            if_neg ht2]
        | some o =>
          cases o with
          | mul =>
            cases hu : ud t with
            | none => rw [parseUnitsAux_cons, if_neg ht1, if_neg ht2, parseUnitsAux_cons, if_neg ht1,
                if_neg ht2]; simp [hu]
            | some x =>
              rw [parseUnitsAux_cons, if_neg ht1, if_neg ht2, parseUnitsAux_cons, if_neg ht1, if_neg ht2]
              simp only [hu]
              exact ih (f * x) none
          | div =>
            cases hu : ud t with
            | none => rw [parseUnitsAux_cons, if_neg ht1, if_neg ht2, parseUnitsAux_cons, if_neg ht1,
                if_neg ht2]; simp [hu]
            | some x =>
              rw [parseUnitsAux_cons, if_neg ht1, if_neg ht2, parseUnitsAux_cons, if_neg ht1, if_neg ht2]
              simp only [hu]
              exact ih (f / x) none

/-- C6 amended: unit-expression parsing evaluates whitespace-separated
tokens left-to-right starting from an implicit multiply, folding a factor
over alternating operator/unit-name tokens; consecutive operator tokens are
accepted, the later one taking effect; parsing fails with the grammar error
exactly on a unit name that appears while no operator is pending (i.e.
directly after another unit name). -/
theorem parse_units_grammar_amended (ud : String → Option ℚ) :
    (∀ (u0 : String) (x0 : ℚ) (rest : List (Bool × String)),
      u0 ≠ "*" → u0 ≠ "/" → ud u0 = some x0 →
      (∀ p ∈ rest, p.2 ≠ "*" ∧ p.2 ≠ "/" ∧ (ud p.2).isSome) →
      parseUnitsString ud (altTokens u0 rest) =
        .ok (rest.foldl (fun f p => applyUnitOp f p.1 ((ud p.2).getD 1)) (1 * x0))) ∧
    (∀ (pre post : List String) (a b : String), (a = "*" ∨ a = "/") → (b = "*" ∨ b = "/") →
      parseUnitsString ud (pre ++ a :: b :: post) =
        parseUnitsString ud (pre ++ b :: post)) ∧
    (∀ (u v : String) (ts : List String) (x : ℚ),
      u ≠ "*" → u ≠ "/" → v ≠ "*" → v ≠ "/" → ud u = some x →
      parseUnitsString ud (u :: v :: ts) = .error "Unrecognized sequence in string") := by
  refine ⟨?_, ?_, ?_⟩
  · intro u0 x0 rest h1 h2 hx0 hrest
    show parseUnitsAux ud 1 (some .mul)
        (u0 :: rest.flatMap fun p => [if p.1 then "*" else "/", p.2]) = _
    rw [parseUnitsAux_cons, if_neg h1, if_neg h2]
    simp only [hx0]
    exact parseUnitsAux_alt ud rest (1 * x0) hrest
  · intro pre post a b ha hb
    exact parseUnitsAux_double_op ud post a b ha hb pre 1 (some .mul)
  · intro u v ts x hu1 hu2 hv1 hv2 hx
    show parseUnitsAux ud 1 (some .mul) (u :: v :: ts) = _
    rw [parseUnitsAux_cons, if_neg hu1, if_neg hu2]
    simp only [hx]
    rw [parseUnitsAux_cons, if_neg hv1, if_neg hv2]

theorem parse_units_grammar_amended_witness :
    parseUnitsString exampleUnitdict ["cm", "/", "s"] = .ok (2 / 5) := by
  have h := (parse_units_grammar_amended exampleUnitdict).1 "cm" 2 [(false, "s")]
    (by decide) (by decide) (by rfl) (by decide)
  simp only [altTokens, List.flatMap_cons, List.flatMap_nil] at h
  simpa [applyUnitOp, exampleUnitdict] using h

/-- C7 counterexample: a name with only two delimiter-separated tokens is
parsed without failure — `dict(zip(...))` silently truncates — contradicting
the claim that parsing fails for any name without exactly four tokens. -/
theorem parse_model_name_two_tokens_accepted :
    parseModelName "N1e5_rv1".data =
      .ok [(['N'], .pint 100000), (['r', 'v'], .pfloat 1)] := by
  decide

theorem zip_map_fst_take {α β : Type} (ks : List α) (ts : List β) :
    (ks.zip ts).map Prod.fst = ks.take ts.length := by
  induction ks generalizing ts with
  | nil => simp
  | cons k ks ih =>
    cases ts with
    | nil => simp
    | cons t ts => simp [ih]

theorem mapExcept_keys {α β : Type} (g : List Char × α → Except String (List Char × β))
    (hg : ∀ kv out, g kv = .ok out → out.1 = kv.1) :
    ∀ (pairs : List (List Char × α)) (out : List (List Char × β)),
      mapExcept g pairs = .ok out →
      out.map Prod.fst = pairs.map Prod.fst := by
  intro pairs
  induction pairs with
  | nil =>
    intro out h
    injection h with h2
    rw [← h2]
    rfl
  | cons kv rest ih =>
    intro out h
    rw [mapExcept] at h
    cases hstep : g kv with
    | error e => rw [hstep] at h; cases h
    | ok v =>
      rw [hstep] at h
      cases hrest : mapExcept g rest with
      | error e => rw [hrest] at h; cases h
      | ok vs =>
        rw [hrest] at h
        injection h with h2
        rw [← h2]
        simp [hg kv v hstep, ih vs hrest]

/-- C7 amended: name parsing pairs the recognized prefixes N, rv, rg, Z
positionally with the delimiter-separated tokens, truncating to the shorter
list — extra tokens are ignored and missing trailing tokens simply yield no
entry, with no failure; each kept token has every occurrence of its prefix
removed and is cast to float (truncated to int for N); the conforming name
N1e5_rv1_rg8_Z0.0002 yields N=100000, rv=1.0, rg=8.0, Z=0.0002; parsing
fails (ValueError) only when a stripped token is not numeric, as for
Nx_rv1_rg8_Z0.0002. -/
theorem parse_model_name_amended :
    (parseModelName "N1e5_rv1_rg8_Z0.0002".data =
      .ok [(['N'], .pint 100000), (['r', 'v'], .pfloat 1), (['r', 'g'], .pfloat 8),
        (['Z'], .pfloat (mkRat 1 5000))]) ∧
    (∀ (name : List Char) (ps : List (List Char × PVal)), parseModelName name = .ok ps →
      ps.map Prod.fst = kremerKeys.take (pySplitChar '_' name).length ∧
      ps.length = min 4 (pySplitChar '_' name).length) ∧
    parseModelName "Nx_rv1_rg8_Z0.0002".data = .error "ValueError" := by
  refine ⟨by decide, ?_, by decide⟩
  intro name ps h
  rw [parseModelName] at h
  have hkeys := mapExcept_keys _ (fun kv out hout => by
    cases hf : pyFloat (pyReplace kv.1 [] kv.2) with
    | none => rw [hf] at hout; cases hout
    | some q =>
      rw [hf] at hout
      injection hout with h2
      rw [← h2]) _ ps h
  constructor
  · rw [hkeys, zip_map_fst_take]
  · have hlen : ps.length = (kremerKeys.zip (pySplitChar '_' name)).length := by
      have := congrArg List.length hkeys
      simpa using this
    rw [hlen, List.length_zip]
    rfl

theorem parse_model_name_amended_witness :
    [(['N'], PVal.pint 100000), (['r', 'v'], PVal.pfloat 1)].map Prod.fst =
      kremerKeys.take (pySplitChar '_' "N1e5_rv1".data).length :=
  (parse_model_name_amended.2.1 "N1e5_rv1".data _ (by decide)).1

/-- C8 counterexample: with disjoint cluster keys the loader returns
normally with an empty merged table — no `JoinError` (or any exception) is
raised, contradicting the claim. -/
theorem gc_catalog_disjoint_keys_counterexample :
    gcCatalogInit [("A", (1 : ℚ))] [("B", 1)] = .ok [] := by
  decide

/-- C8 amended: when the two observational tables share no cluster-name
keys, the loader returns normally with an empty merged table (pandas inner
merge semantics) instead of failing with a `JoinError`. -/
theorem gc_catalog_disjoint_keys_empty (α : Type) (baumgardt : List (String × α))
    (harris : List (String × ℚ))
    (hdisj : ∀ l ∈ baumgardt, ∀ r ∈ harris, l.1 ≠ r.1) :
    gcCatalogInit baumgardt harris = .ok [] := by
  rw [gcCatalogInit]
  congr 1
  rw [innerMerge, List.flatMap_eq_nil_iff]
  intro l hl
  rw [List.map_eq_nil_iff, List.filter_eq_nil_iff]
  intro r hr
  have hrh : r ∈ harris := List.mem_of_mem_filter hr
  have := hdisj l hl r hrh
  simp only [beq_iff_eq]
  intro hc
  exact this hc.symm

theorem gc_catalog_disjoint_keys_empty_witness :
    gcCatalogInit [("A", (1 : ℚ))] [("C", 2)] = .ok [] :=
  gc_catalog_disjoint_keys_empty ℚ [("A", 1)] [("C", 2)] (by decide)

/-- C9 counterexample: on the valid header line `"a: m:b:c"` (both tokens
contain the separator) the parser returns the names `["", "b"]` — the first
is empty, and the second is not the text after the first separator
occurrence of its token (which would be `"b:c"`), refuting both the
non-emptiness conjunct and the extraction description of the claim. -/
theorem header_parser_counterexample :
    getColumnNames [] "a: m:b:c".data = .ok [[], ['b']] ∧
    ([] : List Char) ∈ [([] : List Char), ['b']] ∧
    afterFirstSep ':' "m:b:c".data = "b:c".data ∧
    ['b'] ≠ "b:c".data := by
  refine ⟨by decide, by decide, by decide, by decide⟩

theorem pySplitChar_ne_nil (sep : Char) (s : List Char) : pySplitChar sep s ≠ [] := by
  match s with
  | [] => simp [pySplitChar]
  | c :: rest =>
    rw [pySplitChar]
    split
    · simp
    · cases h : pySplitChar sep rest <;> simp

theorem pySplitChar_not_mem (sep : Char) (s : List Char) :
    ∀ f ∈ pySplitChar sep s, sep ∉ f := by
  induction s with
  | nil =>
    intro f hf
    simp [pySplitChar] at hf
    simp [hf]
  | cons c rest ih =>
    intro f hf
    rw [pySplitChar] at hf
    by_cases hc : c = sep
    · rw [if_pos hc] at hf
      rcases List.mem_cons.mp hf with h | h
      · simp [h]
      · exact ih f h
    · rw [if_neg hc] at hf
      cases hsp : pySplitChar sep rest with
      | nil => exact absurd hsp (pySplitChar_ne_nil sep rest)
      | cons g gs =>
        rw [hsp] at hf
        rcases List.mem_cons.mp hf with h | h
        · subst h
          intro hmem
          rcases List.mem_cons.mp hmem with h2 | h2
          · exact hc h2.symm
          · exact ih g (by rw [hsp]; exact List.mem_cons_self g gs) h2
        · exact ih f (by rw [hsp]; exact List.mem_cons_of_mem g h)

theorem mapExcept_length {a b : Type} (g : a → Except String b) :
    ∀ (xs : List a) (ys : List b), mapExcept g xs = .ok ys → ys.length = xs.length := by
  intro xs
  induction xs with
  | nil =>
    intro ys h
    injection h with h2
    rw [← h2]
    rfl
  | cons x rest ih =>
    intro ys h
    rw [mapExcept] at h
    cases hstep : g x with
    | error e => rw [hstep] at h; cases h
    | ok y =>
      rw [hstep] at h
      cases hrest : mapExcept g rest with
      | error e => rw [hrest] at h; cases h
      | ok vs =>
        rw [hrest] at h
        injection h with h2
        rw [← h2]
        simp [ih vs hrest]

theorem mapExcept_mem {a b : Type} (g : a → Except String b) :
    ∀ (xs : List a) (ys : List b), mapExcept g xs = .ok ys →
      ∀ y ∈ ys, ∃ x ∈ xs, g x = .ok y := by
  intro xs
  induction xs with
  | nil =>
    intro ys h y hy
    injection h with h2
    rw [← h2] at hy
    cases hy
  | cons x rest ih =>
    intro ys h y hy
    rw [mapExcept] at h
    cases hstep : g x with
    | error e => rw [hstep] at h; cases h
    | ok v =>
      rw [hstep] at h
      cases hrest : mapExcept g rest with
      | error e => rw [hrest] at h; cases h
      | ok vs =>
        rw [hrest] at h
        injection h with h2
        rw [← h2] at hy
        rcases List.mem_cons.mp hy with h3 | h3
        · exact ⟨x, List.mem_cons_self x rest, by rw [hstep, h3]⟩
        · rcases ih vs hrest y h3 with ⟨x2, hx2, hgx2⟩
          exact ⟨x2, List.mem_cons_of_mem x hx2, hgx2⟩

theorem mapExcept_pointwise {a b : Type} (g : a → Except String b) (d : a) (e : b) :
    ∀ (xs : List a) (ys : List b), mapExcept g xs = .ok ys →
      ∀ k, k < xs.length → g (xs.getD k d) = .ok (ys.getD k e) := by
  intro xs
  induction xs with
  | nil => intro ys h k hk; cases hk
  | cons x rest ih =>
    intro ys h k hk
    rw [mapExcept] at h
    cases hstep : g x with
    | error er => rw [hstep] at h; cases h
    | ok v =>
      rw [hstep] at h
      cases hrest : mapExcept g rest with
      | error er => rw [hrest] at h; cases h
      | ok vs =>
        rw [hrest] at h
        injection h with h2
        rw [← h2]
        match k with
        | 0 => simpa using hstep
        | k + 1 =>
          simp only [List.getD_cons_succ]
          exact ih vs hrest k (by simpa using hk)

theorem headerTokens_length (aliases : List Char) (line : List Char) :
    (headerTokens aliases line).length = (pySplitWs line).length := by
  rw [headerTokens]
  induction aliases generalizing line with
  | nil => rfl
  | cons ca cas ih =>
    rw [List.foldl_cons]
    have : ∀ (toks : List (List Char)) (cs : List Char),
        (cs.foldl (fun cur c => cur.map fun t => pyReplace [c] [':'] t) toks).length =
          toks.length := by
      intro toks cs
      induction cs generalizing toks with
      | nil => rfl
      | cons u us ihu => rw [List.foldl_cons]; rw [ihu]; simp
    rw [this]
    simp

/-- C9 amended: for every header line on which the parser succeeds (each
substituted token contains the separator; otherwise it raises IndexError),
the output has one name per whitespace token, every name is free of the
separator character, and each name is the second field of the
separator-split of its substituted token — the text between the first and
second separator occurrences, which may be empty. -/
theorem header_parser_amended (aliases : List Char) (line : List Char)
    (names : List (List Char)) (h : getColumnNames aliases line = .ok names) :
    names.length = (pySplitWs line).length ∧
    (∀ nm ∈ names, ':' ∉ nm) ∧
    (∀ k, k < names.length →
      names.getD k [] = (pySplitChar ':' ((headerTokens aliases line).getD k [])).getD 1 []) := by
  rw [getColumnNames] at h
  refine ⟨?_, ?_, ?_⟩
  · rw [mapExcept_length _ _ names h, headerTokens_length]
  · intro nm hnm
    rcases mapExcept_mem _ _ names h nm hnm with ⟨tok, htok, hg⟩
    cases hsp : (pySplitChar ':' tok).get? 1 with
    | none => rw [hsp] at hg; cases hg
    | some nm2 =>
      rw [hsp] at hg
      injection hg with h2
      subst h2
      exact pySplitChar_not_mem ':' tok nm2 (List.get?_mem hsp)
  · intro k hk
    have hklt : k < (headerTokens aliases line).length := by
      rw [← mapExcept_length _ _ names h]
      exact hk
    have hp := mapExcept_pointwise _ [] [] _ names h k hklt
    cases hsp : (pySplitChar ':' ((headerTokens aliases line).getD k [])).get? 1 with
    | none => rw [hsp] at hp; cases hp
    | some nm2 =>
      rw [hsp] at hp
      injection hp with h2
      rw [← h2]
      rcases List.get?_eq_some.mp hsp with ⟨hlt, hget⟩
      rw [List.getD_eq_getElem _ _ hlt]
      rw [← hget]
      simp

theorem header_parser_amended_witness :
    ([['b'], ['d']] : List (List Char)).length = (pySplitWs "a:b c:d".data).length :=
  (header_parser_amended [] "a:b c:d".data [['b'], ['d']] (by decide)).1

/-- C10: when a binning axis has exactly one unique simulated value, bin
construction raises an uncaught IndexError while computing the first bin's
upper edge (reading the element after the current one), so the matching
loop never completes. -/
theorem single_value_bins_index_error (xs : List ℚ) (h : xs.length = 1) :
    mkBins xs = .error "IndexError" := by
  match xs with
  | [] => simp at h
  | [x] => rfl
  | x :: y :: r => simp at h

theorem single_value_bins_index_error_witness :
    mkBins [(5 : ℚ)] = .error "IndexError" :=
  single_value_bins_index_error [5] (by decide)

theorem exceptMapOk {e a b : Type} (f : a → b) (x : a) :
    Except.map f (.ok x : Except e a) = .ok (f x) := rfl

theorem mkBinsAux_closed (xs : List ℚ) (n : ℕ) (hn : n = xs.length) :
    ∀ (fuel i : ℕ), 1 ≤ i → i < n → fuel = n - i →
      mkBinsAux xs n fuel i (midpt xs (i - 1)) =
        .ok ((List.range' i (n - i)).map fun j => (binLo xs j, binHi xs j)) := by
  intro fuel
  induction fuel with
  | zero => intro i h1 h2 h3; omega
  | succ fuel ih =>
    intro i h1 h2 h3
    by_cases hlast : i = n - 1
    · rw [mkBinsAux, if_pos hlast]
      have hni : n - i = 1 := by omega
      rw [hni, List.range'_succ]
      simp only [List.range'_zero, List.map_cons, List.map_nil]
      have hLo : binLo xs i = .fin (midpt xs (i - 1)) := by
        simp only [binLo]
        rw [if_neg (by omega)]
      have hHi : binHi xs i = .pinf := by
        simp only [binHi]
        rw [if_pos (by omega)]
      rw [hLo, hHi]
    · rw [mkBinsAux, if_neg hlast]
      have hi1 : i + 1 < n := by omega
      rw [if_pos (by omega : i + 1 < xs.length)]
      have harg : (xs.getD i 0 + xs.getD (i + 1) 0) / 2 = midpt xs ((i + 1) - 1) := by
        simp [midpt]
      rw [harg, ih (i + 1) (by omega) hi1 (by omega), exceptMapOk]
      have hsplit : n - i = (n - (i + 1)) + 1 := by omega
      rw [hsplit, List.range'_succ, List.map_cons]
      have hLo : binLo xs i = .fin (midpt xs (i - 1)) := by
        simp only [binLo]
        rw [if_neg (by omega)]
      have hHi : binHi xs i = .fin (midpt xs i) := by
        simp only [binHi]
        rw [if_neg (by omega)]
      rw [hLo, hHi]
      have hmid : midpt xs ((i + 1) - 1) = midpt xs i := by simp
      rw [hmid]

theorem mkBins_closed (xs : List ℚ) (hlen : 2 ≤ xs.length) :
    mkBins xs = .ok ((List.range xs.length).map fun i => (binLo xs i, binHi xs i)) := by
  match xs with
  | x :: rest =>
    rw [mkBins]
    rw [if_pos (by omega : 1 < (x :: rest).length)]
    have harg : ((x :: rest).getD 0 0 + (x :: rest).getD 1 0) / 2 =
        midpt (x :: rest) (1 - 1) := by
      simp [midpt]
    rw [harg]
    have h1n : 1 < (x :: rest).length := by
      simp only [List.length_cons] at hlen ⊢
      omega
    rw [mkBinsAux_closed (x :: rest) (x :: rest).length rfl ((x :: rest).length - 1) 1
      (by omega) (by omega) (by omega), exceptMapOk]
    have hr : (x :: rest).length = ((x :: rest).length - 1) + 1 := by simp
    rw [List.range_eq_range', hr, List.range'_succ, List.map_cons]
    have hLo : binLo (x :: rest) 0 = .ninf := by
      simp [binLo]
    have hHi : binHi (x :: rest) 0 = .fin (midpt (x :: rest) 0) := by
      simp only [binHi]
      rw [if_neg (by omega)]
    rw [hLo, hHi]
    have hm : midpt (x :: rest) (1 - 1) = midpt (x :: rest) 0 := by norm_num
    rw [hm]
    simp

theorem sorted_getD_lt (xs : List ℚ) (hs : List.Chain' (· < ·) xs) (i j : ℕ)
    (hij : i < j) (hj : j < xs.length) : xs.getD i 0 < xs.getD j 0 := by
  have hp : List.Pairwise (· < ·) xs := List.chain'_iff_pairwise.mp hs
  have h := List.pairwise_iff_getElem.mp hp i j (lt_trans hij hj) hj hij
  rw [List.getD_eq_getElem _ _ (lt_trans hij hj), List.getD_eq_getElem _ _ hj]
  exact h

theorem sorted_getD_le (xs : List ℚ) (hs : List.Chain' (· < ·) xs) (i j : ℕ)
    (hij : i ≤ j) (hj : j < xs.length) : xs.getD i 0 ≤ xs.getD j 0 := by
  rcases Nat.lt_or_ge i j with h | h
  · exact le_of_lt (sorted_getD_lt xs hs i j h hj)
  · have heq : i = j := by omega
    rw [heq]

theorem midpt_mono (xs : List ℚ) (hs : List.Chain' (· < ·) xs) (i j : ℕ)
    (hij : i ≤ j) (hj : j + 1 < xs.length) : midpt xs i ≤ midpt xs j := by
  have h1 := sorted_getD_le xs hs i j hij (by omega)
  have h2 := sorted_getD_le xs hs (i + 1) (j + 1) (by omega) hj
  rw [midpt, midpt]
  linarith

theorem binMem_iff (xs : List ℚ) (i : ℕ) (v : ℚ) :
    binMem (binLo xs i, binHi xs i) v ↔
      ((i = 0 ∨ midpt xs (i - 1) ≤ v) ∧ (i = xs.length - 1 ∨ v < midpt xs i)) := by
  rw [binMem]
  by_cases h0 : i = 0
  · by_cases hl : i = xs.length - 1
    · simp only [binLo, binHi, if_pos h0, if_pos hl, edgeLE, ltEdge]
      simp [h0, hl]
      exact Or.inl (by omega)
    · simp only [binLo, binHi, if_pos h0, if_neg hl, edgeLE, ltEdge]
      simp [h0, hl]
      exact fun h => absurd (h0.trans h) hl
  · by_cases hl : i = xs.length - 1
    · simp only [binLo, binHi, if_neg h0, if_pos hl, edgeLE, ltEdge]
      simp [h0, hl]
      exact fun h => absurd (hl.trans h) h0
    · simp only [binLo, binHi, if_neg h0, if_neg hl, edgeLE, ltEdge]
      simp [h0, hl]

/-- C2: for a sorted list of at least two unique simulated values on which
bin construction succeeds, the bins are one per value; the first bin's
lower edge is -inf and the last bin's upper edge is +inf; interior upper
edges are midpoints of adjacent values and each bin's lower edge equals the
previous bin's upper edge (contiguous, non-overlapping); every original
value lies strictly inside its own bin; and every rational number falls in
exactly one bin. -/
theorem bins_partition (xs : List ℚ) (bins : List (BinEdge × BinEdge))
    (hsort : List.Chain' (· < ·) xs) (hlen : 2 ≤ xs.length)
    (hbins : mkBins xs = .ok bins) :
    bins.length = xs.length ∧
    (bins.getD 0 (.ninf, .ninf)).1 = .ninf ∧
    (bins.getD (xs.length - 1) (.ninf, .ninf)).2 = .pinf ∧
    (∀ i, i + 1 < xs.length →
      (bins.getD i (.ninf, .ninf)).2 = .fin (midpt xs i) ∧
      (bins.getD (i + 1) (.ninf, .ninf)).1 = (bins.getD i (.ninf, .ninf)).2) ∧
    (∀ i, i < xs.length →
      edgeLT (bins.getD i (.ninf, .ninf)).1 (xs.getD i 0) ∧
      ltEdge (xs.getD i 0) (bins.getD i (.ninf, .ninf)).2) ∧
    (∀ v : ℚ, ∃! i, i < bins.length ∧ binMem (bins.getD i (.ninf, .ninf)) v) := by
  rw [mkBins_closed xs hlen] at hbins
  injection hbins with hbe
  have hblen : bins.length = xs.length := by rw [← hbe]; simp
  have hbin : ∀ i, i < xs.length →
      bins.getD i (.ninf, .ninf) = (binLo xs i, binHi xs i) := by
    intro i hi
    rw [← hbe]
    rw [List.getD_eq_getElem _ _ (by simpa using hi), List.getElem_map, List.getElem_range]
  refine ⟨hblen, ?_, ?_, ?_, ?_, ?_⟩
  · rw [hbin 0 (by omega)]
    simp [binLo]
  · rw [hbin (xs.length - 1) (by omega)]
    simp [binHi]
  · intro i hi
    constructor
    · rw [hbin i (by omega)]
      simp only [binHi]
      rw [if_neg (by omega)]
    · rw [hbin i (by omega), hbin (i + 1) (by omega)]
      simp only [binLo, binHi]
      rw [if_neg (by omega : ¬ i + 1 = 0), if_neg (by omega : ¬ i = xs.length - 1)]
      simp
  · intro i hi
    rw [hbin i hi]
    constructor
    · by_cases h0 : i = 0
      · simp [h0, binLo, edgeLT]
      · simp only [binLo]
        rw [if_neg h0]
        simp only [edgeLT]
        have hlt := sorted_getD_lt xs hsort (i - 1) i (by omega) hi
        have h2 : xs.getD (i - 1 + 1) 0 = xs.getD i 0 := by
          congr 1
          omega
        rw [midpt, h2]
        linarith
    · by_cases hl : i = xs.length - 1
      · simp only [binHi]
        rw [if_pos hl]
        simp [ltEdge]
      · simp only [binHi]
        rw [if_neg hl]
        simp only [ltEdge]
        have hlt := sorted_getD_lt xs hsort i (i + 1) (by omega) (by omega)
        rw [midpt]
        linarith
  · intro v
    have hexQ : ∃ k, (k = xs.length - 1 ∨ v < midpt xs k) := ⟨xs.length - 1, Or.inl rfl⟩
    have hQj := Nat.find_spec hexQ
    have hjle : Nat.find hexQ ≤ xs.length - 1 := Nat.find_le (Or.inl rfl)
    have hjlt : Nat.find hexQ < xs.length := by omega
    refine ⟨Nat.find hexQ, ⟨by omega, ?_⟩, ?_⟩
    · rw [hbin (Nat.find hexQ) hjlt, binMem_iff]
      refine ⟨?_, hQj⟩
      by_cases h0 : Nat.find hexQ = 0
      · exact Or.inl h0
      · right
        have hmin := Nat.find_min hexQ (show Nat.find hexQ - 1 < Nat.find hexQ by omega)
        push_neg at hmin
        exact hmin.2
    · rintro k ⟨hk_lt, hk_mem⟩
      have hkn : k < xs.length := by omega
      rw [hbin k hkn, binMem_iff] at hk_mem
      obtain ⟨hk1, hk2⟩ := hk_mem
      by_contra hne
      rcases Nat.lt_or_ge k (Nat.find hexQ) with hkj | hjk
      · exact Nat.find_min hexQ hkj hk2
      · have hjk2 : Nat.find hexQ < k := by omega
        have hk0 : ¬ k = 0 := by omega
        have hge : midpt xs (k - 1) ≤ v := by
          rcases hk1 with h | h
          · exact absurd h hk0
          · exact h
        have hvlt : v < midpt xs (Nat.find hexQ) := by
          rcases hQj with h | h
          · omega
          · exact h
        have hk1n : k - 1 + 1 < xs.length := by omega
        have hmono := midpt_mono xs hsort (Nat.find hexQ) (k - 1) (by omega) hk1n
        linarith

theorem bins_partition_witness :
    ([((BinEdge.ninf : BinEdge), BinEdge.fin 2), (BinEdge.fin 2, BinEdge.pinf)] :
      List (BinEdge × BinEdge)).length = ([(0 : ℚ), 4]).length := by
  have hb : mkBins [(0 : ℚ), 4] = .ok [(.ninf, .fin 2), (.fin 2, .pinf)] := by
    rw [mkBins_closed [(0 : ℚ), 4] (by norm_num)]
    norm_num [binLo, binHi, midpt, List.range_succ]
  exact (bins_partition [(0 : ℚ), 4] [(.ninf, .fin 2), (.fin 2, .pinf)]
    (by norm_num) (by norm_num) hb).1
